import Mathlib

/-!
Verification of the `dtransform` repository: the `Spectrum` class of
`src/dtransform/dtransform.py`, a truncated multivariate power series
(differential-transform spectrum) with per-variable center and scaling,
and its algebra (negation, addition, subtraction, multiplication,
division, scalar operations, reconstruction).

Modelling conventions (shallow embedding):
* Coefficient values and center/scaling values are rationals (`ℚ`),
  modelling the exact arithmetic the sympy engine performs on the
  expression values stored in the table.
* The symbolic-expression engine is embedded as a small AST `Expr`
  (constants, variables, sums, products) with recursive differentiation
  and evaluation, the fragment of the engine contract (§6 of the design
  document) that the construction procedure consumes.  Variables are
  identified by natural numbers, playing the role of sympy symbols
  ordered by name.
* A Python `dict` keyed by multi-indices is an insertion-ordered
  association list `Table`; `dict.get(k, 0)` is `dget`, `dict.get(k)` is
  `dfind?`, `d[k] = v` for a fresh key is `dinsert` (append).
* The stored `__center` and `__scaling` dicts are keyed by exactly the
  variables, in the canonical sorted variable order, so they are
  represented as lists of values parallel to `variables`; dict equality
  of two such stored mappings (used by `_check_compatibility` after the
  variable tuples were found equal) coincides with list equality.
* Exceptions are the `Except SpecError` monad; each `SpecError`
  constructor stands for one distinct raise site / message of the code.
-/

namespace DTransform

/-- `itertools.product` over a list of ranges: `cartProd [r1, …, rd]`
enumerates all lists `[x1, …, xd]` with `xi ∈ ri`, leftmost index
varying slowest, exactly in the order Python generates the tuples. -/
def cartProd : List (List Nat) → List (List Nat)
  | [] => [[]]
  | r :: rs => r.flatMap (fun x => (cartProd rs).map (fun t => x :: t))

/-- `product(*[range(order)] * d)`: the full multi-index space
`{0,…,order−1}^d` in generation order. -/
def fullIndices (order d : Nat) : List (List Nat) :=
  cartProd (List.replicate d (List.range order))

/-- `product(*[range(k + 1) for k in idx])`: all multi-indices that are
component-wise `≤ k`, in generation order. -/
def subIndices (k : List Nat) : List (List Nat) :=
  cartProd (k.map (fun km => List.range (km + 1)))

/-- `tuple(k - l for k, l in zip(idx, i))`: component-wise difference of
multi-indices (natural subtraction, as the code only uses `i ≤ idx`). -/
def idxSub (k i : List Nat) : List Nat :=
  (List.zip k i).map (fun p => p.1 - p.2)

/-- A coefficient table: a Python dict keyed by multi-indices, as an
insertion-ordered association list. -/
abbrev Table := List (List Nat × ℚ)

/-- `dict.get(k)`: first binding of key `k`, if any. -/
def dfind? : Table → List Nat → Option ℚ
  | [], _ => none
  | (k', v) :: rest, k => if k' = k then some v else dfind? rest k

/-- `dict.get(k, 0)`: lookup with the default `0` used throughout the
arithmetic operators for missing entries. -/
def dget (t : Table) (k : List Nat) : ℚ :=
  (dfind? t k).getD 0

/-- `d[k] = v` for a key not yet present: append the binding. -/
def dinsert (t : Table) (k : List Nat) (v : ℚ) : Table :=
  t ++ [(k, v)]

/-- The key list of a table (dict key view, in insertion order). -/
def keysOf (t : Table) : List (List Nat) :=
  t.map (fun kv => kv.1)

/-- The engine's expression language, the fragment of the sympy
capability interface that the construction procedure consumes:
rational constants, variables (sympy symbols, identified by naturals
ordered like symbol names), sums and products. -/
inductive Expr where
  | const : ℚ → Expr
  | var : Nat → Expr
  | add : Expr → Expr → Expr
  | mul : Expr → Expr → Expr
deriving DecidableEq

/-- Engine substitution of a total assignment of values for variables
(`Expr.subs` with every free symbol given a value, i.e. evaluation). -/
def Expr.eval (σ : Nat → ℚ) : Expr → ℚ
  | const q => q
  | var v => σ v
  | add a b => a.eval σ + b.eval σ
  | mul a b => a.eval σ * b.eval σ

/-- `sp.diff(e, v)`: one symbolic differentiation step with respect to
variable `v`, by the standard linearity and product rules. -/
def Expr.diff1 (v : Nat) : Expr → Expr
  | const _ => const 0
  | var w => const (if w = v then 1 else 0)
  | add a b => add (a.diff1 v) (b.diff1 v)
  | mul a b => add (mul (a.diff1 v) b) (mul a (b.diff1 v))

/-- `sp.diff(e, v, n)`: differentiate `n` times with respect to `v`. -/
def Expr.diffN (e : Expr) (v : Nat) : Nat → Expr
  | 0 => e
  | n + 1 => (e.diff1 v).diffN v n

/-- Occurrences of variables in an expression (free symbols, with
multiplicity and in syntactic order). -/
def Expr.varOcc : Expr → List Nat
  | const _ => []
  | var v => [v]
  | add a b => a.varOcc ++ b.varOcc
  | mul a b => a.varOcc ++ b.varOcc

/-- Insert a number into an already sorted list of numbers. -/
def insortNat (x : Nat) : List Nat → List Nat
  | [] => [x]
  | y :: ys => if x ≤ y then x :: y :: ys else y :: insortNat x ys

/-- Insertion sort for lists of numbers. -/
def sortNat : List Nat → List Nat
  | [] => []
  | x :: xs => insortNat x (sortNat xs)

/-- `tuple(sorted(expr.free_symbols, key=lambda s: s.name))`: the
deduplicated, sorted variable sequence of an expression. -/
def Expr.sortedFreeVars (e : Expr) : List Nat :=
  sortNat e.varOcc.dedup

/-- A constructor-argument mapping (`center` / `scaling` dict keyed by
variable names), as an association list over variable identifiers. -/
abbrev QDict := List (Nat × ℚ)

/-- Lookup in a constructor-argument mapping. -/
def qfind? : QDict → Nat → Option ℚ
  | [], _ => none
  | (k', v) :: rest, k => if k' = k then some v else qfind? rest k

/-- `mapping.get(var, dflt)`. -/
def qgetD (m : QDict) (k : Nat) (dflt : ℚ) : ℚ :=
  (qfind? m k).getD dflt

/-- The `Spectrum` aggregate.  The retained expression text `__expr` is
display-only (used by `__repr__` and never by the algebra) and is
omitted.  `center` and `scaling` are the stored per-variable dicts,
represented as value lists parallel to `variables` (the dicts are built
keyed by exactly the variables, in order). -/
structure Spectrum where
  order : Nat
  varSeq : List Nat
  center : List ℚ
  scaling : List ℚ
  coeffs : Table
deriving DecidableEq

/-- Error taxonomy: one constructor per distinct raise site/message of
`dtransform.py`.
* `invalidOrder`: "Order must be a positive integer".
* `invalidScaling v`: "Scaling constant for variable 'v' must be a
  positive integer".
* `varsMismatch`: "Variables do not match.".
* `orderMismatch`: "Expansion order mismatch.".
* `scalingMismatch`: "Scaling constants mismatch.".
* `centerMismatch`: "Expansion center mismatch.".
* `zeroDivisionLeading`: "Leading coefficient of denominator is zero.".
* `zeroDivisionScalar`: "Division by zero.".
* `unsupportedOperand`: the `TypeError` branches of `__mul__` and
  `__truediv__`.
* `noneLeadingCoeff`: the denominator table has no entry at the all-zero
  index at all, so `zeros_coeff` is Python `None`, `None == 0` is
  `False`, and the first `val / zeros_coeff` in the (always executed,
  the order being positive) loop raises a `TypeError`. -/
inductive SpecError where
  | invalidOrder
  | invalidScaling : Nat → SpecError
  | varsMismatch
  | orderMismatch
  | scalingMismatch
  | centerMismatch
  | zeroDivisionLeading
  | zeroDivisionScalar
  | unsupportedOperand
  | noneLeadingCoeff
deriving DecidableEq

/-- The scaling-validation part of `Spectrum.__init__`'s loop
`for var in self.__variables`: the first variable whose supplied scaling
value (default `1`) is not strictly positive raises. -/
def checkScaling (scaling : QDict) : List Nat → Except SpecError Unit
  | [] => .ok ()
  | v :: vs =>
      if qgetD scaling v 1 ≤ 0 then .error (.invalidScaling v)
      else checkScaling scaling vs

/-- The coefficient-construction loop of `Spectrum.__init__`: for every
multi-index of `{0,…,order−1}^d`, differentiate `k_m` times along each
variable in sequence, substitute the center, multiply by
`∏ scaling^k` and divide by `∏ k!`. -/
def buildCoeffs (e : Expr) (vars : List Nat) (σ : Nat → ℚ)
    (svals : List ℚ) (order : Nat) : Table :=
  (fullIndices order vars.length).foldl
    (fun acc k =>
      let deriv := (List.zip vars k).foldl
        (fun d p => d.diffN p.1 p.2) e
      let denom : ℚ := (k.map (fun km => (Nat.factorial km : ℚ))).prod
      let hterms : ℚ := ((List.zip svals k).map (fun p => p.1 ^ p.2)).prod
      dinsert acc k (deriv.eval σ * hterms / denom))
    []

/-- `Spectrum.__init__`.  `center` is the merged effective center
mapping `(center or {}) | kwargs` (keyword entries already folded in);
variables absent from it default to `0`, variables absent from
`scaling` default to `1`.  The order precondition `order <= 0` is
`order = 0` over `ℕ`. -/
def mkSpectrum (e : Expr) (order : Nat) (center scaling : QDict) :
    Except SpecError Spectrum :=
  if order = 0 then .error .invalidOrder
  else
    let vars := e.sortedFreeVars
    match checkScaling scaling vars with
    | .error err => .error err
    | .ok _ =>
        let σ : Nat → ℚ := fun v => qgetD center v 0
        let svals := vars.map (fun v => qgetD scaling v 1)
        .ok { order := order
              varSeq := vars
              center := vars.map σ
              scaling := svals
              coeffs := buildCoeffs e vars σ svals order }

/-- `Spectrum.clone`: copy the defining attributes (the caller then
overwrites the coefficient table). -/
def Spectrum.clone (s : Spectrum) : Spectrum := s

/-- `e ** p` as engine power: iterated product, `e ** 0 = 1`. -/
def powE (e : Expr) : Nat → Expr
  | 0 => Expr.const 1
  | n + 1 => Expr.mul (powE e n) e

/-- One term of the reconstruction sum:
`coeff * ∏_m ((x_m − center_m) / scaling_m) ** k_m`, the engine
quotient `(x − a) / s` being the product with the constant `s⁻¹`. -/
def invTerm (vars : List Nat) (cs ss : List ℚ) (k : List Nat)
    (c : ℚ) : Expr :=
  (List.zip (List.zip vars (List.zip cs ss)) k).foldl
    (fun t p =>
      Expr.mul t
        (powE
          (Expr.mul
            (Expr.add (Expr.var p.1.1) (Expr.const (-p.1.2.1)))
            (Expr.const p.1.2.2⁻¹))
          p.2))
    (Expr.const c)

/-- `Spectrum.inverse`: reassemble the Taylor sum
`Σ_k coeff[k] · ∏ ((x − a)/s)^k` over the stored table.  The final
`sp.simplify` call is an engine operation that preserves the value of
the expression and is omitted (all round-trip claims are about the
evaluated value). -/
def Spectrum.inverse (s : Spectrum) : Expr :=
  s.coeffs.foldl
    (fun acc kv =>
      Expr.add acc (invTerm s.varSeq s.center s.scaling kv.1 kv.2))
    (Expr.const 0)

/-- `Spectrum._check_compatibility`: the four attribute comparisons, in
the fixed source order, each raising its own message. -/
def checkCompat (s t : Spectrum) : Except SpecError Unit :=
  if s.varSeq ≠ t.varSeq then .error .varsMismatch
  else if s.order ≠ t.order then .error .orderMismatch
  else if s.scaling ≠ t.scaling then .error .scalingMismatch
  else if s.center ≠ t.center then .error .centerMismatch
  else .ok ()

/-- The key set iterated by `__add__`/`__sub__`:
`frozenset(self.__coeffs) | frozenset(other.coeffs)` (a set; the
enumeration order of a Python frozenset is unspecified, only the set of
keys is observable through the resulting dict). -/
def unionKeys (a b : Table) : List (List Nat) :=
  (keysOf a ++ keysOf b).dedup

/-- `Spectrum.__add__`. -/
def specAdd (s t : Spectrum) : Except SpecError Spectrum :=
  match checkCompat s t with
  | .error e => .error e
  | .ok _ =>
      .ok { s.clone with
            coeffs := (unionKeys s.coeffs t.coeffs).map
              (fun k => (k, dget s.coeffs k + dget t.coeffs k)) }

/-- `Spectrum.__sub__`. -/
def specSub (s t : Spectrum) : Except SpecError Spectrum :=
  match checkCompat s t with
  | .error e => .error e
  | .ok _ =>
      .ok { s.clone with
            coeffs := (unionKeys s.coeffs t.coeffs).map
              (fun k => (k, dget s.coeffs k - dget t.coeffs k)) }

/-- `Spectrum.__neg__`. -/
def specNeg (s : Spectrum) : Spectrum :=
  { s.clone with coeffs := s.coeffs.map (fun kv => (kv.1, -kv.2)) }

/-- The right operand of `__mul__` / `__truediv__` / `__rmul__`:
either another `Spectrum`, a scalar / engine expression value, or a
foreign value of any other type (the `TypeError` branches). -/
inductive Operand where
  | spec : Spectrum → Operand
  | scalar : ℚ → Operand
  | foreign : Operand

/-- `Spectrum.__mul__`: truncated multivariate Cauchy convolution when
the operand is a `Spectrum`, coefficient-wise scalar product (`other *
v`, scalar on the left) when it is a scalar, `TypeError` otherwise. -/
def specMul (s : Spectrum) : Operand → Except SpecError Spectrum
  | .spec t =>
      match checkCompat s t with
      | .error e => .error e
      | .ok _ =>
          .ok { s.clone with
                coeffs :=
                  (fullIndices s.order s.varSeq.length).foldl
                    (fun acc k =>
                      dinsert acc k
                        ((subIndices k).foldl
                          (fun v i =>
                            v + dget s.coeffs i *
                              dget t.coeffs (idxSub k i))
                          0))
                    [] }
  | .scalar c =>
      .ok { s.clone with
            coeffs := s.coeffs.map (fun kv => (kv.1, c * kv.2)) }
  | .foreign => .error .unsupportedOperand

/-- `Spectrum.__rmul__`: delegates to `__mul__`. -/
def specRMul (s : Spectrum) (o : Operand) : Except SpecError Spectrum :=
  specMul s o

/-- The body of the division loop for one output index `idx`:
start from `a.get(idx, 0)`, subtract `b.get(i, 0) * coeffs.get(j, 0)`
for every sub-index `i` whose complement `j = idx − i` differs from
`idx`, then store `val / zeros_coeff`. -/
def divStep (aT bT : Table) (z : ℚ) (acc : Table) (k : List Nat) :
    Table :=
  dinsert acc k
    (((subIndices k).foldl
        (fun v i =>
          if idxSub k i ≠ k then v - dget bT i * dget acc (idxSub k i)
          else v)
        (dget aT k)) / z)

/-- The full division loop of `__truediv__` over all output indices. -/
def specDivTable (aT bT : Table) (z : ℚ) (order d : Nat) : Table :=
  (fullIndices order d).foldl (divStep aT bT z) []

/-- `Spectrum.__truediv__`: compatibility check, then the leading-
coefficient zero guard, then the recursive deconvolution loop;
coefficient-wise division for a scalar operand after its own zero
guard; `TypeError` otherwise. -/
def specDiv (s : Spectrum) : Operand → Except SpecError Spectrum
  | .spec t =>
      match checkCompat s t with
      | .error e => .error e
      | .ok _ =>
          let d := s.varSeq.length
          match dfind? t.coeffs (List.replicate d 0) with
          | some z =>
              if z = 0 then .error .zeroDivisionLeading
              else
                .ok { s.clone with
                      coeffs := specDivTable s.coeffs t.coeffs z
                        s.order d }
          | none => .error .noneLeadingCoeff
  | .scalar c =>
      if c = 0 then .error .zeroDivisionScalar
      else
        .ok { s.clone with
              coeffs := s.coeffs.map (fun kv => (kv.1, kv.2 / c)) }
  | .foreign => .error .unsupportedOperand

/-! ### Association-table lemmas -/

theorem dfind?_append_of_some {t₁ : Table} {k : List Nat} {v : ℚ}
    (t₂ : Table) (h : dfind? t₁ k = some v) :
    dfind? (t₁ ++ t₂) k = some v := by
  induction t₁ with
  | nil => simp [dfind?] at h
  | cons kv rest ih =>
      rw [dfind?] at h
      rw [List.cons_append, dfind?]
      split at h
      · next hk => simp [hk, h]
      · next hk => simp only [if_neg hk]; exact ih h

theorem dfind?_append_of_none {t₁ : Table} {k : List Nat}
    (t₂ : Table) (h : dfind? t₁ k = none) :
    dfind? (t₁ ++ t₂) k = dfind? t₂ k := by
  induction t₁ with
  | nil => simp
  | cons kv rest ih =>
      rw [dfind?] at h
      rw [List.cons_append, dfind?]
      split at h
      · exact absurd h (by simp)
      · next hk => simp only [if_neg hk]; exact ih h

theorem dfind?_eq_none_iff {t : Table} {k : List Nat} :
    dfind? t k = none ↔ k ∉ keysOf t := by
  induction t with
  | nil => simp [dfind?, keysOf]
  | cons kv rest ih =>
      rw [dfind?, keysOf, List.map_cons]
      split
      · next hk => simp [hk]
      · next hk =>
          simp only [List.mem_cons, ih, keysOf]
          constructor
          · rintro h (rfl | hm)
            · exact hk rfl
            · exact h hm
          · intro h hm
            exact h (Or.inr hm)

theorem dfind?_isSome_of_mem {t : Table} {k : List Nat}
    (h : k ∈ keysOf t) : ∃ v, dfind? t k = some v := by
  rcases hv : dfind? t k with _ | v
  · exact absurd h (dfind?_eq_none_iff.mp hv)
  · exact ⟨v, rfl⟩

theorem dget_append_of_mem {t₁ : Table} {k : List Nat} (t₂ : Table)
    (h : k ∈ keysOf t₁) : dget (t₁ ++ t₂) k = dget t₁ k := by
  obtain ⟨v, hv⟩ := dfind?_isSome_of_mem h
  rw [dget, dget, hv, dfind?_append_of_some t₂ hv]

theorem keysOf_dinsert (t : Table) (k : List Nat) (v : ℚ) :
    keysOf (dinsert t k v) = keysOf t ++ [k] := by
  simp [keysOf, dinsert]

theorem dget_dinsert_of_mem {t : Table} {j : List Nat}
    (k : List Nat) (v : ℚ) (h : j ∈ keysOf t) :
    dget (dinsert t k v) j = dget t j :=
  dget_append_of_mem _ h

theorem dget_dinsert_self {t : Table} {k : List Nat} (v : ℚ)
    (h : k ∉ keysOf t) : dget (dinsert t k v) k = v := by
  rw [dget, dinsert,
    dfind?_append_of_none _ (dfind?_eq_none_iff.mpr h)]
  simp [dfind?]

theorem dget_dinsert_of_ne {t : Table} {j k : List Nat} (v : ℚ)
    (hj : j ∉ keysOf t) (hne : j ≠ k) :
    dget (dinsert t k v) j = dget t j := by
  rw [dget, dinsert, dfind?_append_of_none _ (dfind?_eq_none_iff.mpr hj),
    dget, dfind?_eq_none_iff.mpr hj]
  simp [dfind?, Ne.symm hne]

theorem dget_not_mem {t : Table} {k : List Nat} (h : k ∉ keysOf t) :
    dget t k = 0 := by
  rw [dget, dfind?_eq_none_iff.mpr h, Option.getD_none]

theorem dfind?_map_self {l : List (List Nat)} {k : List Nat}
    (f : List Nat → ℚ) (hnd : l.Nodup) (hk : k ∈ l) :
    dfind? (l.map (fun x => (x, f x))) k = some (f k) := by
  induction l with
  | nil => cases hk
  | cons x xs ih =>
      rw [List.map_cons, dfind?]
      rcases List.mem_cons.mp hk with rfl | hk'
      · simp
      · have hne : x ≠ k := fun h => (List.nodup_cons.mp hnd).1 (h ▸ hk')
        rw [if_neg hne]
        exact ih (List.nodup_cons.mp hnd).2 hk'

theorem keysOf_map_pair (l : List (List Nat)) (f : List Nat → ℚ) :
    keysOf (l.map (fun x => (x, f x))) = l := by
  induction l with
  | nil => rfl
  | cons x xs ih => simp only [List.map_cons, keysOf] at ih ⊢; rw [ih]

theorem foldl_dinsert_map (f : List Nat → ℚ) :
    ∀ (l : List (List Nat)) (acc : Table),
      l.foldl (fun acc k => dinsert acc k (f k)) acc =
        acc ++ l.map (fun k => (k, f k)) := by
  intro l
  induction l with
  | nil => intro acc; simp
  | cons x xs ih =>
      intro acc
      rw [List.foldl_cons, ih, List.map_cons, dinsert]
      simp

/-! ### Cartesian products of ranges, membership and enumeration order -/

theorem mem_cartProd {a : List Nat} :
    ∀ {rs : List (List Nat)},
      a ∈ cartProd rs ↔ List.Forall₂ (· ∈ ·) a rs := by
  induction a with
  | nil =>
      intro rs
      cases rs with
      | nil => simp [cartProd]
      | cons r rs =>
          simp only [cartProd, List.mem_flatMap, List.mem_map]
          constructor
          · rintro ⟨x, -, t, -, h⟩; cases h
          · intro h; cases h
  | cons x xs ih =>
      intro rs
      cases rs with
      | nil => simp [cartProd]
      | cons r rs =>
          simp only [cartProd, List.mem_flatMap, List.mem_map,
            List.forall₂_cons_right_iff]
          constructor
          · rintro ⟨y, hy, t, ht, heq⟩
            cases heq
            exact ⟨x, xs, hy, ih.mp ht, rfl⟩
          · rintro ⟨y, ts, hy, ht, heq⟩
            cases heq
            exact ⟨x, hy, xs, ih.mpr ht, rfl⟩

theorem mem_fullIndices {k : List Nat} {order d : Nat} :
    k ∈ fullIndices order d ↔ k.length = d ∧ ∀ x ∈ k, x < order := by
  rw [fullIndices, mem_cartProd]
  induction k generalizing d with
  | nil =>
      cases d with
      | zero => simp
      | succ d => simp [List.replicate_succ]
  | cons x xs ih =>
      cases d with
      | zero => simp
      | succ d =>
          simp only [List.replicate_succ, List.forall₂_cons,
            List.mem_range, List.length_cons, List.mem_cons]
          rw [ih]
          constructor
          · rintro ⟨h1, h2, h3⟩
            exact ⟨by omega, fun y hy => by
              rcases hy with rfl | hy
              · exact h1
              · exact h3 y hy⟩
          · rintro ⟨h1, h2⟩
            exact ⟨h2 x (Or.inl rfl), by omega,
              fun y hy => h2 y (Or.inr hy)⟩

theorem mem_subIndices {i k : List Nat} :
    i ∈ subIndices k ↔ List.Forall₂ (· ≤ ·) i k := by
  rw [subIndices, mem_cartProd, List.forall₂_map_right_iff]
  constructor
  · intro h
    exact h.imp (fun {a b} hab => Nat.lt_succ_iff.mp (List.mem_range.mp hab))
  · intro h
    exact h.imp (fun {a b} hab => List.mem_range.mpr (Nat.lt_succ_of_le hab))

/-! ### The lexicographic enumeration order of `itertools.product` -/

/-- Strict lexicographic order on multi-indices: the order in which
`itertools.product` emits the tuples. -/
def lexLt : List Nat → List Nat → Prop
  | [], _ => False
  | _ :: _, [] => False
  | a :: as, b :: bs => a < b ∨ (a = b ∧ lexLt as bs)

theorem lexLt_asymm : ∀ {a b : List Nat}, lexLt a b → lexLt b a → False
  | [], _, h, _ => h
  | _ :: _, [], _, h => h
  | _ :: as, _ :: bs, h₁, h₂ => by
      rw [lexLt] at h₁ h₂
      rcases h₁ with h₁ | ⟨rfl, h₁⟩
      · rcases h₂ with h₂ | ⟨rfl, _⟩
        · omega
        · omega
      · rcases h₂ with h₂ | ⟨-, h₂⟩
        · omega
        · exact lexLt_asymm h₁ h₂

theorem lexLt_irrefl {a : List Nat} (h : lexLt a a) : False :=
  lexLt_asymm h h

theorem lexLt_trans :
    ∀ {a b c : List Nat}, lexLt a b → lexLt b c → lexLt a c
  | [], _, _, h, _ => absurd h (by rw [lexLt]; exact not_false)
  | _ :: _, [], _, h, _ => absurd h (by rw [lexLt]; exact not_false)
  | _ :: _, _ :: _, [], _, h => absurd h (by rw [lexLt]; exact not_false)
  | x :: as, y :: bs, w :: cs, h₁, h₂ => by
      rw [lexLt] at h₁ h₂ ⊢
      rcases h₁ with h₁ | ⟨rfl, h₁⟩
      · rcases h₂ with h₂ | ⟨rfl, h₂⟩
        · exact Or.inl (Nat.lt_trans h₁ h₂)
        · exact Or.inl h₁
      · rcases h₂ with h₂ | ⟨rfl, h₂⟩
        · exact Or.inl h₂
        · exact Or.inr ⟨rfl, lexLt_trans h₁ h₂⟩

theorem lexLt_ne {a b : List Nat} (h : lexLt a b) : a ≠ b :=
  fun he => lexLt_irrefl (he ▸ h)

theorem lexLt_of_forall₂_le_ne :
    ∀ {a b : List Nat}, List.Forall₂ (· ≤ ·) a b → a ≠ b → lexLt a b := by
  intro a b h
  induction h with
  | nil => intro hne; exact absurd rfl hne
  | cons hxy htl ih =>
      next x y as bs =>
      intro hne
      rw [lexLt]
      rcases Nat.lt_or_ge x y with hlt | hge
      · exact Or.inl hlt
      · have hxy' : x = y := Nat.le_antisymm hxy hge
        subst hxy'
        refine Or.inr ⟨rfl, ih fun he => hne ?_⟩
        rw [he]

theorem pairwise_lexLt_cartProd :
    ∀ {rs : List (List Nat)}, (∀ r ∈ rs, r.Pairwise (· < ·)) →
      (cartProd rs).Pairwise lexLt := by
  intro rs
  induction rs with
  | nil => intro _; simp [cartProd]
  | cons r rs ih =>
      intro h
      rw [cartProd, List.pairwise_flatMap]
      refine ⟨fun x _ => ?_, ?_⟩
      · rw [List.pairwise_map]
        refine (ih fun q hq => h q (List.mem_cons_of_mem _ hq)).imp ?_
        intro a b hab
        exact Or.inr ⟨rfl, hab⟩
      · refine (h r (List.mem_cons_self _ _)).imp_of_mem ?_
        intro x y _ _ hxy
        intro u hu w hw
        rcases List.mem_map.mp hu with ⟨tu, -, rfl⟩
        rcases List.mem_map.mp hw with ⟨tw, -, rfl⟩
        exact Or.inl hxy

theorem pairwise_lexLt_fullIndices (order d : Nat) :
    (fullIndices order d).Pairwise lexLt := by
  apply pairwise_lexLt_cartProd
  intro r hr
  rcases List.eq_of_mem_replicate hr with rfl
  exact List.pairwise_lt_range order

theorem nodup_fullIndices (order d : Nat) :
    (fullIndices order d).Nodup :=
  (pairwise_lexLt_fullIndices order d).imp lexLt_ne

theorem nodup_subIndices (k : List Nat) : (subIndices k).Nodup := by
  refine (pairwise_lexLt_cartProd ?_).imp lexLt_ne
  intro r hr
  rcases List.mem_map.mp hr with ⟨km, -, rfl⟩
  exact List.pairwise_lt_range _

/-! ### Component-wise order and multi-index subtraction -/

theorem forall₂_le_idxSub :
    ∀ {i k : List Nat}, List.Forall₂ (· ≤ ·) i k →
      List.Forall₂ (· ≤ ·) (idxSub k i) k := by
  intro i k h
  induction h with
  | nil => exact List.Forall₂.nil
  | cons hxy htl ih =>
      rw [idxSub] at ih ⊢
      rw [List.zip_cons_cons, List.map_cons]
      exact List.Forall₂.cons (Nat.sub_le _ _) ih

theorem length_idxSub_of_forall₂ {i k : List Nat}
    (h : List.Forall₂ (· ≤ ·) i k) : (idxSub k i).length = k.length := by
  rw [idxSub, List.length_map, List.length_zip, h.length_eq,
    Nat.min_self]

theorem forall₂_le_mem_lt {i k : List Nat} {order : Nat}
    (h : List.Forall₂ (· ≤ ·) i k) (hk : ∀ x ∈ k, x < order) :
    ∀ x ∈ i, x < order := by
  induction h with
  | nil => intro x hx; cases hx
  | cons hxy htl ih =>
      intro x hx
      rcases List.mem_cons.mp hx with rfl | hx'
      · exact Nat.lt_of_le_of_lt hxy (hk _ (List.mem_cons_self _ _))
      · exact ih (fun y hy => hk y (List.mem_cons_of_mem _ hy)) x hx'

theorem idxSub_eq_self_iff :
    ∀ {i k : List Nat}, List.Forall₂ (· ≤ ·) i k →
      (idxSub k i = k ↔ i = List.replicate k.length 0) := by
  intro i k h
  induction h with
  | nil => simp [idxSub]
  | cons hxy htl ih =>
      next x y as bs =>
      rw [idxSub] at ih ⊢
      rw [List.zip_cons_cons, List.map_cons, List.length_cons,
        List.replicate_succ]
      constructor
      · intro he
        rcases List.cons.injEq _ _ _ _ ▸ he with ⟨h1, h2⟩
        have hx0 : x = 0 := by omega
        rw [hx0, ih.mp h2]
      · intro he
        rcases List.cons.injEq _ _ _ _ ▸ he with ⟨h1, h2⟩
        subst h1
        rw [ih.mpr h2, Nat.sub_zero]

/-- The dependencies of an output index come strictly earlier in the
enumeration: a sub-index difference `j = k − i` other than `k` itself
is lexicographically before `k`. -/
theorem lexLt_idxSub {i k : List Nat}
    (hik : List.Forall₂ (· ≤ ·) i k) (hne : idxSub k i ≠ k) :
    lexLt (idxSub k i) k :=
  lexLt_of_forall₂_le_ne (forall₂_le_idxSub hik) hne

/-! ### Folds as sums -/

theorem foldl_add_eq_sum (g : List Nat → ℚ) :
    ∀ (l : List (List Nat)) (s : ℚ),
      l.foldl (fun v i => v + g i) s = s + (l.map g).sum := by
  intro l
  induction l with
  | nil => intro s; simp
  | cons x xs ih =>
      intro s
      rw [List.foldl_cons, ih, List.map_cons, List.sum_cons]
      ring

theorem foldl_if_sub_eq_sum (p : List Nat → Prop) [DecidablePred p]
    (g : List Nat → ℚ) :
    ∀ (l : List (List Nat)) (s : ℚ),
      l.foldl (fun v i => if p i then v - g i else v) s =
        s - ((l.filter (fun i => decide (p i))).map g).sum := by
  intro l
  induction l with
  | nil => intro s; simp
  | cons x xs ih =>
      intro s
      rw [List.foldl_cons]
      by_cases hp : p x
      · rw [if_pos hp, ih, List.filter_cons_of_pos (by simp [hp]),
          List.map_cons, List.sum_cons]
        ring
      · rw [if_neg hp, ih, List.filter_cons_of_neg (by simp [hp])]

theorem sum_map_single {l : List (List Nat)} {k₀ : List Nat}
    (f : List Nat → ℚ) (hnd : l.Nodup) (hk : k₀ ∈ l)
    (hz : ∀ k ∈ l, k ≠ k₀ → f k = 0) : (l.map f).sum = f k₀ := by
  induction l with
  | nil => cases hk
  | cons x xs ih =>
      rw [List.map_cons, List.sum_cons]
      rcases List.mem_cons.mp hk with rfl | hk'
      · have : ∀ k ∈ xs, f k = 0 := by
          intro k hkx
          exact hz k (List.mem_cons_of_mem _ hkx)
            (fun he => (List.nodup_cons.mp hnd).1 (he ▸ hkx))
        have hsum : (xs.map f).sum = 0 := by
          rw [List.sum_eq_zero]
          intro y hy
          rcases List.mem_map.mp hy with ⟨k, hkx, rfl⟩
          exact this k hkx
        rw [hsum, add_zero]
      · have hx0 : f x = 0 :=
          hz x (List.mem_cons_self _ _)
            (fun he => (List.nodup_cons.mp hnd).1 (he ▸ hk'))
        rw [hx0, zero_add]
        exact ih (List.nodup_cons.mp hnd).2 hk'
          (fun k hkx => hz k (List.mem_cons_of_mem _ hkx))

/-! ### Claims about compatibility checking and the scalar operators -/

/-- Specification-side description of `_check_compatibility` (§4.7 of
the spec): the first attribute among {variables, order, scaling,
center}, checked in that fixed order, on which the two Series
disagree. -/
def firstMismatch (s t : Spectrum) : Option SpecError :=
  if s.varSeq ≠ t.varSeq then some .varsMismatch
  else if s.order ≠ t.order then some .orderMismatch
  else if s.scaling ≠ t.scaling then some .scalingMismatch
  else if s.center ≠ t.center then some .centerMismatch
  else none

theorem checkCompat_of_firstMismatch {s t : Spectrum} {e : SpecError}
    (h : firstMismatch s t = some e) : checkCompat s t = .error e := by
  rw [firstMismatch] at h
  rw [checkCompat]
  by_cases h1 : s.varSeq = t.varSeq
  · rw [if_neg (by simp [h1])] at h ⊢
    by_cases h2 : s.order = t.order
    · rw [if_neg (by simp [h2])] at h ⊢
      by_cases h3 : s.scaling = t.scaling
      · rw [if_neg (by simp [h3])] at h ⊢
        by_cases h4 : s.center = t.center
        · rw [if_neg (by simp [h4])] at h
          cases h
        · rw [if_pos (by simp [h4])] at h ⊢
          rw [Option.some.injEq] at h
          rw [h]
      · rw [if_pos (by simp [h3])] at h ⊢
        rw [Option.some.injEq] at h
        rw [h]
    · rw [if_pos (by simp [h2])] at h ⊢
      rw [Option.some.injEq] at h
      rw [h]
  · rw [if_pos (by simp [h1])] at h ⊢
    rw [Option.some.injEq] at h
    rw [h]

/-- Claim C7: every binary Series-with-Series operator (addition,
subtraction, multiplication, division) raises an incompatible-operands
error, rather than returning or coercing, whenever the two Series
differ in variables, order, scaling, or center; the attributes are
checked in exactly that fixed order and the error identifies the first
mismatching attribute. -/
theorem binary_ops_incompatible (s t : Spectrum) (e : SpecError)
    (h : firstMismatch s t = some e) :
    specAdd s t = .error e ∧ specSub s t = .error e ∧
    specMul s (.spec t) = .error e ∧ specDiv s (.spec t) = .error e ∧
    (firstMismatch s t = none ↔
      s.varSeq = t.varSeq ∧ s.order = t.order ∧
        s.scaling = t.scaling ∧ s.center = t.center) := by
  have hc := checkCompat_of_firstMismatch h
  refine ⟨?_, ?_, ?_, ?_, ?_⟩
  · simp [specAdd, hc]
  · simp [specSub, hc]
  · simp [specMul, hc]
  · simp [specDiv, hc]
  · rw [firstMismatch]
    constructor
    · intro hn
      by_cases h1 : s.varSeq = t.varSeq
      · rw [if_neg (by simp [h1])] at hn
        by_cases h2 : s.order = t.order
        · rw [if_neg (by simp [h2])] at hn
          by_cases h3 : s.scaling = t.scaling
          · rw [if_neg (by simp [h3])] at hn
            by_cases h4 : s.center = t.center
            · exact ⟨h1, h2, h3, h4⟩
            · rw [if_pos (by simp [h4])] at hn; cases hn
          · rw [if_pos (by simp [h3])] at hn; cases hn
        · rw [if_pos (by simp [h2])] at hn; cases hn
      · rw [if_pos (by simp [h1])] at hn; cases hn
    · rintro ⟨h1, h2, h3, h4⟩
      simp [h1, h2, h3, h4]

/-- Witness for C7 at a concrete pair of Series differing (only) in
their variable sequences. -/
theorem binary_ops_incompatible_witness :
    specAdd ⟨1, [0], [0], [1], []⟩ ⟨1, [1], [0], [1], []⟩ =
      .error .varsMismatch ∧
    specSub ⟨1, [0], [0], [1], []⟩ ⟨1, [1], [0], [1], []⟩ =
      .error .varsMismatch ∧
    specMul ⟨1, [0], [0], [1], []⟩ (.spec ⟨1, [1], [0], [1], []⟩) =
      .error .varsMismatch ∧
    specDiv ⟨1, [0], [0], [1], []⟩ (.spec ⟨1, [1], [0], [1], []⟩) =
      .error .varsMismatch ∧
    (firstMismatch ⟨1, [0], [0], [1], []⟩ ⟨1, [1], [0], [1], []⟩ =
        none ↔
      ([0] : List Nat) = [1] ∧ (1 : Nat) = 1 ∧
        ([1] : List ℚ) = [1] ∧ ([0] : List ℚ) = [0]) :=
  binary_ops_incompatible ⟨1, [0], [0], [1], []⟩ ⟨1, [1], [0], [1], []⟩
    .varsMismatch (by decide)

/-- Claim C9: negation, scalar multiplication, and scalar division each
return a Series whose order, center, scaling, and variable sequence
equal those of the input Series; only the coefficient table differs. -/
theorem unary_ops_frame (s : Spectrum) (c : ℚ) (r r' : Spectrum)
    (hm : specMul s (.scalar c) = .ok r)
    (hd : specDiv s (.scalar c) = .ok r') :
    ((specNeg s).order = s.order ∧ (specNeg s).center = s.center ∧
      (specNeg s).scaling = s.scaling ∧ (specNeg s).varSeq = s.varSeq) ∧
    (r.order = s.order ∧ r.center = s.center ∧
      r.scaling = s.scaling ∧ r.varSeq = s.varSeq) ∧
    (r'.order = s.order ∧ r'.center = s.center ∧
      r'.scaling = s.scaling ∧ r'.varSeq = s.varSeq) := by
  simp only [specMul, Except.ok.injEq] at hm
  subst hm
  by_cases hc : c = 0
  · rw [specDiv, if_pos hc] at hd
    cases hd
  · rw [specDiv, if_neg hc, Except.ok.injEq] at hd
    subst hd
    exact ⟨⟨rfl, rfl, rfl, rfl⟩, ⟨rfl, rfl, rfl, rfl⟩,
      ⟨rfl, rfl, rfl, rfl⟩⟩

/-- Witness for C9 at a concrete Series and the scalar 2. -/
theorem unary_ops_frame_witness :
    ((specNeg ⟨1, [0], [0], [1], [([0], 3)]⟩).order =
        (⟨1, [0], [0], [1], [([0], 3)]⟩ : Spectrum).order ∧
      (specNeg ⟨1, [0], [0], [1], [([0], 3)]⟩).center =
        (⟨1, [0], [0], [1], [([0], 3)]⟩ : Spectrum).center ∧
      (specNeg ⟨1, [0], [0], [1], [([0], 3)]⟩).scaling =
        (⟨1, [0], [0], [1], [([0], 3)]⟩ : Spectrum).scaling ∧
      (specNeg ⟨1, [0], [0], [1], [([0], 3)]⟩).varSeq =
        (⟨1, [0], [0], [1], [([0], 3)]⟩ : Spectrum).varSeq) ∧
    ((1 : Nat) = 1 ∧ ([0] : List ℚ) = [0] ∧
      ([1] : List ℚ) = [1] ∧ ([0] : List Nat) = [0]) ∧
    ((1 : Nat) = 1 ∧ ([0] : List ℚ) = [0] ∧
      ([1] : List ℚ) = [1] ∧ ([0] : List Nat) = [0]) :=
  unary_ops_frame ⟨1, [0], [0], [1], [([0], 3)]⟩ 2
    ⟨1, [0], [0], [1], [([0], 6)]⟩
    ⟨1, [0], [0], [1], [([0], (3 : ℚ) / 2)]⟩
    (by norm_num [specMul, Spectrum.clone]) (by norm_num [specDiv, Spectrum.clone])

/-- Claim C10: scalar multiplication commutes: `c * S` (dispatched by
Python to `__rmul__`, which delegates to `__mul__`) returns the same
result as `S * c`, with equal order, center, scaling, variables and
coefficient table. -/
theorem rmul_commutes (s : Spectrum) (c : ℚ) (r r' : Spectrum)
    (h₁ : specRMul s (.scalar c) = .ok r)
    (h₂ : specMul s (.scalar c) = .ok r') :
    specRMul s (.scalar c) = specMul s (.scalar c) ∧
    r.order = r'.order ∧ r.center = r'.center ∧
    r.scaling = r'.scaling ∧ r.varSeq = r'.varSeq ∧
    r.coeffs = r'.coeffs := by
  rw [specRMul] at h₁
  rw [h₁] at h₂
  rw [Except.ok.injEq] at h₂
  subst h₂
  exact ⟨rfl, rfl, rfl, rfl, rfl, rfl⟩

/-- Witness for C10 at a concrete Series and the scalar 5. -/
theorem rmul_commutes_witness :
    specRMul ⟨1, [0], [0], [1], [([0], 3)]⟩ (.scalar 5) =
      specMul ⟨1, [0], [0], [1], [([0], 3)]⟩ (.scalar 5) ∧
    (1 : Nat) = 1 ∧ ([0] : List ℚ) = [0] ∧
    ([1] : List ℚ) = [1] ∧ ([0] : List Nat) = [0] ∧
    ([([0], (15 : ℚ))] : Table) = [([0], 15)] :=
  rmul_commutes ⟨1, [0], [0], [1], [([0], 3)]⟩ 5
    ⟨1, [0], [0], [1], [([0], 15)]⟩ ⟨1, [0], [0], [1], [([0], 15)]⟩
    (by norm_num [specRMul, specMul, Spectrum.clone])
    (by norm_num [specMul, Spectrum.clone])

/-- Claim C4: dividing a Series by a compatible Series whose constant
coefficient (at the all-zero multi-index) is symbolically zero raises
the division-by-zero error "leading coefficient of denominator is
zero", and dividing by the scalar 0 raises a division-by-zero error;
with a symbolically nonzero constant term, or a nonzero scalar, the
corresponding division-by-zero error is not raised. -/
theorem div_zero_guard (s t : Spectrum) (c z : ℚ)
    (hc : checkCompat s t = .ok ())
    (hz : dfind? t.coeffs (List.replicate s.varSeq.length 0) = some z) :
    (z = 0 → specDiv s (.spec t) = .error .zeroDivisionLeading) ∧
    (z ≠ 0 → specDiv s (.spec t) ≠ .error .zeroDivisionLeading ∧
      specDiv s (.spec t) =
        .ok { s with coeffs := (specDivTable s.coeffs t.coeffs z
          s.order s.varSeq.length) }) ∧
    specDiv s (.scalar 0) = .error .zeroDivisionScalar ∧
    (c ≠ 0 → specDiv s (.scalar c) ≠ .error .zeroDivisionScalar) := by
  refine ⟨?_, ?_, ?_, ?_⟩
  · intro h0
    subst h0
    simp [specDiv, hc, hz]
  · intro h0
    constructor
    · simp [specDiv, hc, hz, h0]
    · simp [specDiv, hc, hz, h0, Spectrum.clone]
  · simp [specDiv]
  · intro h0
    simp [specDiv, h0]

/-- Witness for C4: a Series divided by itself (constant term 2 ≠ 0)
and by the scalar 3. -/
theorem div_zero_guard_witness :
    ((2 : ℚ) = 0 →
      specDiv ⟨1, [0], [0], [1], [([0], 2)]⟩
          (.spec ⟨1, [0], [0], [1], [([0], 2)]⟩) =
        .error .zeroDivisionLeading) ∧
    ((2 : ℚ) ≠ 0 →
      specDiv ⟨1, [0], [0], [1], [([0], 2)]⟩
          (.spec ⟨1, [0], [0], [1], [([0], 2)]⟩) ≠
        .error .zeroDivisionLeading ∧
      specDiv ⟨1, [0], [0], [1], [([0], 2)]⟩
          (.spec ⟨1, [0], [0], [1], [([0], 2)]⟩) =
        .ok ⟨1, [0], [0], [1],
          specDivTable [([0], 2)] [([0], 2)] 2 1 1⟩) ∧
    specDiv ⟨1, [0], [0], [1], [([0], 2)]⟩ (.scalar 0) =
      .error .zeroDivisionScalar ∧
    ((3 : ℚ) ≠ 0 →
      specDiv ⟨1, [0], [0], [1], [([0], 2)]⟩ (.scalar 3) ≠
        .error .zeroDivisionScalar) :=
  div_zero_guard ⟨1, [0], [0], [1], [([0], 2)]⟩
    ⟨1, [0], [0], [1], [([0], 2)]⟩ 3 2 (by rfl) (by decide)

/-! ### Claims about addition, subtraction and multiplication -/

theorem mem_unionKeys {a b : Table} {k : List Nat} :
    k ∈ unionKeys a b ↔ k ∈ keysOf a ∨ k ∈ keysOf b := by
  rw [unionKeys, List.mem_dedup, List.mem_append]

theorem dget_keysMap {l : List (List Nat)} (hnd : l.Nodup)
    (f : List Nat → ℚ) (k : List Nat) :
    dget (l.map fun x => (x, f x)) k = if k ∈ l then f k else 0 := by
  by_cases hk : k ∈ l
  · rw [if_pos hk, dget, dfind?_map_self f hnd hk, Option.getD_some]
  · rw [if_neg hk]
    exact dget_not_mem (by rw [keysOf_map_pair]; exact hk)

/-- Claim C6: for addition and subtraction of two compatible Series,
the result coefficient at every multi-index `k` equals `a[k] ± b[k]`
with a missing entry in either operand treated as zero, and the
result's key set is exactly the union of the two operands' key sets. -/
theorem add_sub_pointwise (s t r r' : Spectrum) (k : List Nat)
    (ha : specAdd s t = .ok r) (hs : specSub s t = .ok r') :
    dget r.coeffs k = dget s.coeffs k + dget t.coeffs k ∧
    (k ∈ keysOf r.coeffs ↔ k ∈ keysOf s.coeffs ∨ k ∈ keysOf t.coeffs) ∧
    dget r'.coeffs k = dget s.coeffs k - dget t.coeffs k ∧
    (k ∈ keysOf r'.coeffs ↔
      k ∈ keysOf s.coeffs ∨ k ∈ keysOf t.coeffs) := by
  cases hcc : checkCompat s t with
  | error e =>
      rw [specAdd, hcc] at ha
      cases ha
  | ok u =>
      rw [specAdd, hcc, Except.ok.injEq] at ha
      rw [specSub, hcc, Except.ok.injEq] at hs
      subst ha
      subst hs
      have hnd : (unionKeys s.coeffs t.coeffs).Nodup := List.nodup_dedup _
      refine ⟨?_, ?_, ?_, ?_⟩
      · show dget ((unionKeys s.coeffs t.coeffs).map _) k = _
        rw [dget_keysMap hnd]
        by_cases hk : k ∈ unionKeys s.coeffs t.coeffs
        · rw [if_pos hk]
        · rw [if_neg hk]
          rw [mem_unionKeys, not_or] at hk
          rw [dget_not_mem hk.1, dget_not_mem hk.2, add_zero]
      · show k ∈ keysOf ((unionKeys s.coeffs t.coeffs).map _) ↔ _
        rw [keysOf_map_pair, mem_unionKeys]
      · show dget ((unionKeys s.coeffs t.coeffs).map _) k = _
        rw [dget_keysMap hnd]
        by_cases hk : k ∈ unionKeys s.coeffs t.coeffs
        · rw [if_pos hk]
        · rw [if_neg hk]
          rw [mem_unionKeys, not_or] at hk
          rw [dget_not_mem hk.1, dget_not_mem hk.2, sub_zero]
      · show k ∈ keysOf ((unionKeys s.coeffs t.coeffs).map _) ↔ _
        rw [keysOf_map_pair, mem_unionKeys]

/-- Witness for C6 at two concrete sparse Series with disjoint key
sets. -/
theorem add_sub_pointwise_witness :
    dget ([([0], 1), ([1], 2)] : Table) [1] =
      dget [([0], 1)] [1] + dget [([1], 2)] [1] ∧
    ([1] ∈ keysOf ([([0], 1), ([1], 2)] : Table) ↔
      [1] ∈ keysOf ([([0], 1)] : Table) ∨
        [1] ∈ keysOf ([([1], 2)] : Table)) ∧
    dget ([([0], 1), ([1], -2)] : Table) [1] =
      dget [([0], 1)] [1] - dget [([1], 2)] [1] ∧
    ([1] ∈ keysOf ([([0], 1), ([1], -2)] : Table) ↔
      [1] ∈ keysOf ([([0], 1)] : Table) ∨
        [1] ∈ keysOf ([([1], 2)] : Table)) :=
  add_sub_pointwise ⟨2, [0], [0], [1], [([0], 1)]⟩
    ⟨2, [0], [0], [1], [([1], 2)]⟩
    ⟨2, [0], [0], [1], [([0], 1), ([1], 2)]⟩
    ⟨2, [0], [0], [1], [([0], 1), ([1], -2)]⟩ [1]
    (by norm_num [specAdd, checkCompat, Spectrum.clone, unionKeys,
      keysOf, dget, dfind?, List.dedup])
    (by norm_num [specSub, checkCompat, Spectrum.clone, unionKeys,
      keysOf, dget, dfind?, List.dedup])

/-- Claim C3: for Series multiplication of two compatible Series, the
result coefficient at every multi-index `k` of the full
`{0,…,N-1}^d` product equals the truncated convolution
`Σ_{i component-wise ≤ k} a[i] · b[k−i]`, missing entries defaulting
to zero. -/
theorem mul_convolution (s t r : Spectrum) (k : List Nat)
    (h : specMul s (.spec t) = .ok r)
    (hk : k ∈ fullIndices s.order s.varSeq.length) :
    dget r.coeffs k =
      ((subIndices k).map
        (fun i => dget s.coeffs i * dget t.coeffs (idxSub k i))).sum := by
  cases hcc : checkCompat s t with
  | error e =>
      rw [specMul, hcc] at h
      cases h
  | ok u =>
      rw [specMul, hcc, Except.ok.injEq] at h
      subst h
      show dget ((fullIndices s.order s.varSeq.length).foldl _ []) k = _
      rw [foldl_dinsert_map
        (fun k => (subIndices k).foldl
          (fun v i => v + dget s.coeffs i * dget t.coeffs (idxSub k i))
          0),
        List.nil_append,
        dget_keysMap (nodup_fullIndices _ _) _ k, if_pos hk,
        foldl_add_eq_sum, zero_add]

/-- Witness for C3 at two concrete one-variable Series of order 2. -/
theorem mul_convolution_witness :
    dget ([([0], 4), ([1], 16)] : Table) [1] =
      ((subIndices [1]).map
        (fun i => dget ([([0], 2), ([1], 3)] : Table) i *
          dget ([([0], 2), ([1], 5)] : Table) (idxSub [1] i))).sum :=
  mul_convolution ⟨2, [0], [0], [1], [([0], 2), ([1], 3)]⟩
    ⟨2, [0], [0], [1], [([0], 2), ([1], 5)]⟩
    ⟨2, [0], [0], [1], [([0], 4), ([1], 16)]⟩ [1]
    (by norm_num [specMul, checkCompat, Spectrum.clone, fullIndices,
      cartProd, subIndices, idxSub, dget, dfind?, dinsert,
      List.range_succ, List.range_zero, List.flatMap_cons,
      List.flatMap_nil, List.foldl_cons, List.foldl_nil])
    (by decide)

/-! ### Claims about construction and reconstruction -/

/-- The mixed partial derivative
`∂^{k_1+…+k_d} e / ∂x_1^{k_1} … ∂x_d^{k_d}`: differentiate `k_m` times
with respect to each variable in sequence. -/
def mixedDeriv : Expr → List Nat → List Nat → Expr
  | e, [], _ => e
  | e, _ :: _, [] => e
  | e, v :: vs, km :: ks => mixedDeriv (e.diffN v km) vs ks

theorem foldl_diffN_eq_mixedDeriv :
    ∀ (vars k : List Nat) (e : Expr),
      (List.zip vars k).foldl (fun d p => d.diffN p.1 p.2) e =
        mixedDeriv e vars k := by
  intro vars
  induction vars with
  | nil => intro k e; cases k <;> rfl
  | cons v vs ih =>
      intro k e
      cases k with
      | nil => rfl
      | cons km ks =>
          rw [List.zip_cons_cons, List.foldl_cons]
          exact ih ks (e.diffN v km)

theorem mkSpectrum_ok_elim {e : Expr} {order : Nat}
    {center scaling : QDict} {S : Spectrum}
    (hS : mkSpectrum e order center scaling = .ok S) :
    order ≠ 0 ∧
    checkScaling scaling e.sortedFreeVars = .ok () ∧
    S = { order := order
          varSeq := e.sortedFreeVars
          center := e.sortedFreeVars.map (fun v => qgetD center v 0)
          scaling := e.sortedFreeVars.map (fun v => qgetD scaling v 1)
          coeffs := buildCoeffs e e.sortedFreeVars
            (fun v => qgetD center v 0)
            (e.sortedFreeVars.map (fun v => qgetD scaling v 1))
            order } := by
  by_cases h0 : order = 0
  · rw [mkSpectrum, if_pos h0] at hS
    cases hS
  · rw [mkSpectrum, if_neg h0] at hS
    cases hcs : checkScaling scaling e.sortedFreeVars with
    | error err =>
        exfalso
        simp only [hcs] at hS
        exact Except.noConfusion hS
    | ok u =>
        simp only [hcs, Except.ok.injEq] at hS
        exact ⟨h0, rfl, hS.symm⟩

theorem buildCoeffs_lookup (e : Expr) (vars : List Nat) (σ : Nat → ℚ)
    (svals : List ℚ) (order : Nat) (k : List Nat)
    (hk : k ∈ fullIndices order vars.length) :
    dfind? (buildCoeffs e vars σ svals order) k =
      some ((mixedDeriv e vars k).eval σ *
        ((List.zip svals k).map (fun p => p.1 ^ p.2)).prod /
        (k.map (fun km => (Nat.factorial km : ℚ))).prod) := by
  rw [buildCoeffs]
  rw [foldl_dinsert_map
    (fun k =>
      ((List.zip vars k).foldl (fun d p => d.diffN p.1 p.2) e).eval σ *
        ((List.zip svals k).map (fun p => p.1 ^ p.2)).prod /
        (k.map (fun km => (Nat.factorial km : ℚ))).prod)]
  rw [List.nil_append,
    dfind?_map_self _ (nodup_fullIndices _ _) hk,
    foldl_diffN_eq_mixedDeriv]

/-- Claim C2: for every expression `f`, positive order `N`, center and
scaling mappings accepted by the constructor, the coefficient table has
an entry for every multi-index `k` of the full Cartesian product
`{0,…,N-1}^d` (including zero entries), equal to the mixed partial
derivative of `f` evaluated at the center, times
`scale_1^{k_1}·…·scale_d^{k_d}`, divided by `k_1!·…·k_d!`. -/
theorem construction_coeffs (e : Expr) (order : Nat)
    (center scaling : QDict) (S : Spectrum) (k : List Nat)
    (hS : mkSpectrum e order center scaling = .ok S)
    (hk : k ∈ fullIndices order e.sortedFreeVars.length) :
    dfind? S.coeffs k =
      some ((mixedDeriv e e.sortedFreeVars k).eval
          (fun v => qgetD center v 0) *
        ((List.zip (e.sortedFreeVars.map (fun v => qgetD scaling v 1))
            k).map (fun p => p.1 ^ p.2)).prod /
        (k.map (fun km => (Nat.factorial km : ℚ))).prod) := by
  obtain ⟨-, -, rfl⟩ := mkSpectrum_ok_elim hS
  exact buildCoeffs_lookup e e.sortedFreeVars _ _ order k hk

/-- Witness for C2: the spectrum of the expression `x₀` at order 2,
default center and scaling, looked up at the multi-index `(1)`. -/
theorem construction_coeffs_witness :
    dfind? ([([0], 0), ([1], 1)] : Table) [1] =
      some ((mixedDeriv (Expr.var 0) (Expr.var 0).sortedFreeVars
          [1]).eval (fun v => qgetD [] v 0) *
        ((List.zip ((Expr.var 0).sortedFreeVars.map
            (fun v => qgetD [] v 1)) [1]).map
          (fun p => p.1 ^ p.2)).prod /
        ([1].map (fun km => (Nat.factorial km : ℚ))).prod) :=
  construction_coeffs (Expr.var 0) 2 [] []
    ⟨2, [0], [0], [1], [([0], 0), ([1], 1)]⟩ [1]
    (by norm_num [mkSpectrum, Expr.sortedFreeVars, Expr.varOcc,
      List.dedup, sortNat, insortNat, checkScaling, qgetD, qfind?,
      buildCoeffs, fullIndices, cartProd, List.range_succ,
      List.range_zero, List.flatMap_cons, List.flatMap_nil,
      List.foldl_cons, List.foldl_nil, dinsert, Expr.diffN, Expr.diff1,
      Expr.eval, Nat.factorial])
    (by decide)

theorem eval_foldl_add (σ : Nat → ℚ) (g : List Nat × ℚ → Expr) :
    ∀ (l : List (List Nat × ℚ)) (E : Expr),
      Expr.eval σ (l.foldl (fun acc kv => Expr.add acc (g kv)) E) =
        Expr.eval σ E + (l.map (fun kv => Expr.eval σ (g kv))).sum := by
  intro l
  induction l with
  | nil => intro E; simp
  | cons x xs ih =>
      intro E
      rw [List.foldl_cons, ih, List.map_cons, List.sum_cons]
      simp only [Expr.eval]
      ring

theorem eval_powE (σ : Nat → ℚ) (e : Expr) :
    ∀ n : Nat, (powE e n).eval σ = e.eval σ ^ n := by
  intro n
  induction n with
  | zero => simp [powE, Expr.eval]
  | succ n ih =>
      rw [powE, pow_succ]
      simp only [Expr.eval]
      rw [ih]

theorem eval_foldl_mul (α : Type) (σ : Nat → ℚ) (F : α → Expr) :
    ∀ (l : List α) (E : Expr),
      Expr.eval σ (l.foldl (fun t p => Expr.mul t (F p)) E) =
        Expr.eval σ E * (l.map (fun p => Expr.eval σ (F p))).prod := by
  intro l
  induction l with
  | nil => intro E; simp
  | cons x xs ih =>
      intro E
      rw [List.foldl_cons, ih, List.map_cons, List.prod_cons]
      simp only [Expr.eval]
      ring

theorem invTerm_factors_zero (σ : Nat → ℚ) :
    ∀ (vars : List Nat) (ss : List ℚ) (k : List Nat),
      k.length = vars.length → ss.length = vars.length →
      ((List.zip (List.zip vars (List.zip (vars.map σ) ss)) k).map
        (fun p => Expr.eval σ
          (powE
            (Expr.mul
              (Expr.add (Expr.var p.1.1) (Expr.const (-p.1.2.1)))
              (Expr.const p.1.2.2⁻¹))
            p.2))).prod =
      (k.map (fun p => (0 : ℚ) ^ p)).prod := by
  intro vars
  induction vars with
  | nil =>
      intro ss k hk _
      rw [List.length_nil] at hk
      rw [List.eq_nil_of_length_eq_zero hk]
      simp
  | cons v vs ih =>
      intro ss k hk hs
      cases k with
      | nil => cases hk
      | cons p ks =>
          cases ss with
          | nil => cases hs
          | cons s st =>
              rw [List.length_cons, List.length_cons] at hk hs
              rw [List.map_cons, List.zip_cons_cons, List.zip_cons_cons,
                List.zip_cons_cons, List.map_cons, List.map_cons,
                List.prod_cons, List.prod_cons,
                ih st ks (by omega) (by omega)]
              congr 1
              rw [eval_powE]
              simp only [Expr.eval]
              rw [add_neg_cancel, zero_mul]

theorem invTerm_eval (σ : Nat → ℚ) (vars : List Nat) (ss : List ℚ)
    (k : List Nat) (c : ℚ) (hk : k.length = vars.length)
    (hs : ss.length = vars.length) :
    Expr.eval σ (invTerm vars (vars.map σ) ss k c) =
      c * (k.map (fun p => (0 : ℚ) ^ p)).prod := by
  rw [invTerm,
    eval_foldl_mul ((Nat × ℚ × ℚ) × Nat) σ
      (fun p => powE
        (Expr.mul (Expr.add (Expr.var p.1.1) (Expr.const (-p.1.2.1)))
          (Expr.const p.1.2.2⁻¹))
        p.2),
    invTerm_factors_zero σ vars ss k hk hs]
  simp only [Expr.eval]

theorem prod_zero_pow_of_ne {k : List Nat} (h : ∃ x ∈ k, x ≠ 0) :
    (k.map (fun p => (0 : ℚ) ^ p)).prod = 0 := by
  induction k with
  | nil => rcases h with ⟨x, hx, -⟩; cases hx
  | cons p ks ih =>
      rw [List.map_cons, List.prod_cons]
      rcases h with ⟨x, hx, hxne⟩
      rcases List.mem_cons.mp hx with rfl | hx'
      · rw [zero_pow hxne, zero_mul]
      · rw [ih ⟨x, hx', hxne⟩, mul_zero]

theorem prod_pow_zip_replicate_zero :
    ∀ (ss : List ℚ) (d : Nat), ss.length = d →
      ((List.zip ss (List.replicate d 0)).map
        (fun p => p.1 ^ p.2)).prod = 1 := by
  intro ss
  induction ss with
  | nil => intro d _; simp
  | cons s st ih =>
      intro d hd
      cases d with
      | zero => cases hd
      | succ d =>
          rw [List.replicate_succ, List.zip_cons_cons, List.map_cons,
            List.prod_cons, pow_zero, one_mul]
          exact ih d (by simpa using hd)

theorem mixedDeriv_replicate_zero :
    ∀ (vars : List Nat) (e : Expr),
      mixedDeriv e vars (List.replicate vars.length 0) = e := by
  intro vars
  induction vars with
  | nil => intro e; rfl
  | cons v vs ih =>
      intro e
      rw [List.length_cons, List.replicate_succ, mixedDeriv]
      exact ih e

/-- Claim C5: for every expression `f`, center, scaling and order
`N ≥ 1` accepted by the constructor, the reconstruction
`Series(f).inverse()` evaluated at the center equals `f` evaluated at
the center, exactly. -/
theorem inverse_roundtrip (e : Expr) (order : Nat)
    (center scaling : QDict) (S : Spectrum)
    (hS : mkSpectrum e order center scaling = .ok S) :
    Expr.eval (fun v => qgetD center v 0) S.inverse =
      Expr.eval (fun v => qgetD center v 0) e := by
  obtain ⟨h0, -, rfl⟩ := mkSpectrum_ok_elim hS
  simp only [Spectrum.inverse]
  rw [buildCoeffs,
    foldl_dinsert_map
      (fun k =>
        ((List.zip e.sortedFreeVars k).foldl
          (fun d p => d.diffN p.1 p.2) e).eval
            (fun v => qgetD center v 0) *
          ((List.zip (e.sortedFreeVars.map (fun v => qgetD scaling v 1))
            k).map (fun p => p.1 ^ p.2)).prod /
          (k.map (fun km => (Nat.factorial km : ℚ))).prod),
    List.nil_append, eval_foldl_add, List.map_map]
  set σ := fun v => qgetD center v 0 with hσ
  set vars := e.sortedFreeVars with hvars
  set svals := vars.map (fun v => qgetD scaling v 1) with hsvals
  set F := fun k : List Nat =>
    ((List.zip vars k).foldl (fun d p => d.diffN p.1 p.2) e).eval σ *
      ((List.zip svals k).map (fun p => p.1 ^ p.2)).prod /
      (k.map (fun km => (Nat.factorial km : ℚ))).prod with hF
  have hmap :
      ((fullIndices order vars.length).map
        ((fun kv : List Nat × ℚ =>
          Expr.eval σ (invTerm vars (vars.map σ) svals kv.1 kv.2)) ∘
          (fun k => (k, F k)))) =
      (fullIndices order vars.length).map
        (fun k => F k * (k.map (fun p => (0 : ℚ) ^ p)).prod) := by
    apply List.map_congr_left
    intro k hk
    have hlen : k.length = vars.length := (mem_fullIndices.mp hk).1
    exact invTerm_eval σ vars svals k (F k) hlen
      (by rw [hsvals, List.length_map])
  rw [hmap]
  have hzmem : List.replicate vars.length 0 ∈
      fullIndices order vars.length := by
    rw [mem_fullIndices]
    refine ⟨List.length_replicate _ _, ?_⟩
    intro x hx
    rw [List.eq_of_mem_replicate hx]
    exact Nat.pos_of_ne_zero h0
  rw [sum_map_single _ (nodup_fullIndices _ _) hzmem]
  · have hzeros : ((List.replicate vars.length 0).map
        (fun p => (0 : ℚ) ^ p)).prod = 1 := by
      rw [List.map_replicate, pow_zero, List.prod_replicate, one_pow]
    rw [hzeros, mul_one]
    simp only [hF]
    rw [foldl_diffN_eq_mixedDeriv, mixedDeriv_replicate_zero]
    rw [prod_pow_zip_replicate_zero svals vars.length
      (by rw [hsvals, List.length_map])]
    rw [List.map_replicate]
    rw [show ((Nat.factorial 0 : ℚ)) = 1 by simp [Nat.factorial]]
    rw [List.prod_replicate, one_pow, mul_one, div_one]
    simp [Expr.eval]
  · intro k hk hkne
    have hlen : k.length = vars.length := (mem_fullIndices.mp hk).1
    have hex : ∃ x ∈ k, x ≠ 0 := by
      by_contra hall
      push_neg at hall
      exact hkne (List.eq_replicate_iff.mpr ⟨hlen, hall⟩)
    rw [prod_zero_pow_of_ne hex, mul_zero]

/-- Witness for C5: the spectrum of the expression `x₀ + 3` at order
2, default center and scaling. -/
theorem inverse_roundtrip_witness :
    Expr.eval (fun v => qgetD [] v 0)
      (Spectrum.inverse
        ⟨2, [0], [0], [1], [([0], 3), ([1], 1)]⟩) =
      Expr.eval (fun v => qgetD [] v 0)
        (Expr.add (Expr.var 0) (Expr.const 3)) :=
  inverse_roundtrip (Expr.add (Expr.var 0) (Expr.const 3)) 2 [] []
    ⟨2, [0], [0], [1], [([0], 3), ([1], 1)]⟩
    (by norm_num [mkSpectrum, Expr.sortedFreeVars, Expr.varOcc,
      List.dedup, sortNat, insortNat, checkScaling, qgetD, qfind?,
      buildCoeffs, fullIndices, cartProd, List.range_succ,
      List.range_zero, List.flatMap_cons, List.flatMap_nil,
      List.foldl_cons, List.foldl_nil, dinsert, Expr.diffN, Expr.diff1,
      Expr.eval, Nat.factorial])

/-! ### Claim about scaling validation -/

/-- Specification-side description of the scaling precondition: the
first variable of a list whose supplied scaling value (default 1) is
not strictly positive. -/
def firstBadScaling (scaling : QDict) : List Nat → Option Nat
  | [] => none
  | v :: vs =>
      if qgetD scaling v 1 ≤ 0 then some v
      else firstBadScaling scaling vs

theorem firstBadScaling_isSome {scaling : QDict} :
    ∀ {vs : List Nat} {v : Nat}, v ∈ vs → qgetD scaling v 1 ≤ 0 →
      (firstBadScaling scaling vs).isSome = true := by
  intro vs
  induction vs with
  | nil => intro v hv _; cases hv
  | cons w ws ih =>
      intro v hv hbad
      rw [firstBadScaling]
      by_cases hw : qgetD scaling w 1 ≤ 0
      · rw [if_pos hw]; rfl
      · rw [if_neg hw]
        rcases List.mem_cons.mp hv with rfl | hv'
        · exact absurd hbad hw
        · exact ih hv' hbad

theorem firstBadScaling_mem {scaling : QDict} :
    ∀ {vs : List Nat} {w : Nat},
      firstBadScaling scaling vs = some w →
      w ∈ vs ∧ qgetD scaling w 1 ≤ 0 := by
  intro vs
  induction vs with
  | nil => intro w hw; cases hw
  | cons x xs ih =>
      intro w hw
      rw [firstBadScaling] at hw
      by_cases hx : qgetD scaling x 1 ≤ 0
      · rw [if_pos hx, Option.some.injEq] at hw
        subst hw
        exact ⟨List.mem_cons_self _ _, hx⟩
      · rw [if_neg hx] at hw
        obtain ⟨hmem, hbad⟩ := ih hw
        exact ⟨List.mem_cons_of_mem _ hmem, hbad⟩

theorem checkScaling_error_of_firstBad {scaling : QDict} :
    ∀ {vs : List Nat} {w : Nat},
      firstBadScaling scaling vs = some w →
      checkScaling scaling vs = .error (.invalidScaling w) := by
  intro vs
  induction vs with
  | nil => intro w hw; cases hw
  | cons x xs ih =>
      intro w hw
      rw [firstBadScaling] at hw
      rw [checkScaling]
      by_cases hx : qgetD scaling x 1 ≤ 0
      · rw [if_pos hx, Option.some.injEq] at hw
        rw [if_pos hx, hw]
      · rw [if_neg hx] at hw
        rw [if_neg hx]
        exact ih hw

/-- Counterexample to claim C8 as stated: the supplied scaling mapping
holds the non-positive value −1, for the identifier 1 — which is not a
free variable of the expression `x₀` — and construction nevertheless
succeeds, because `__init__` only validates scaling values of the
expression's own variables. -/
theorem scaling_guard_counterexample :
    qgetD [(1, -1)] 1 1 ≤ 0 ∧
    mkSpectrum (Expr.var 0) 2 [] [(1, -1)] =
      .ok ⟨2, [0], [0], [1], [([0], 0), ([1], 1)]⟩ :=
  ⟨by decide,
    by norm_num [mkSpectrum, Expr.sortedFreeVars, Expr.varOcc,
      List.dedup, sortNat, insortNat, checkScaling, qgetD, qfind?,
      buildCoeffs, fullIndices, cartProd, List.range_succ,
      List.range_zero, List.flatMap_cons, List.flatMap_nil,
      List.foldl_cons, List.foldl_nil, dinsert, Expr.diffN, Expr.diff1,
      Expr.eval, Nat.factorial]⟩

/-- Claim C8 (amended): construction (with a valid order) fails with an
invalid-argument error naming the first offending variable whenever the
scaling value supplied for one of the expression's free variables is
not strictly positive; supplied scaling entries for identifiers that
are not variables of the expression are never examined. -/
theorem scaling_guard_amended (e : Expr) (order : Nat)
    (center scaling : QDict) (v : Nat) (h0 : order ≠ 0)
    (hv : v ∈ e.sortedFreeVars) (hbad : qgetD scaling v 1 ≤ 0) :
    (firstBadScaling scaling e.sortedFreeVars).isSome = true ∧
    (firstBadScaling scaling e.sortedFreeVars).getD 0 ∈
      e.sortedFreeVars ∧
    qgetD scaling ((firstBadScaling scaling e.sortedFreeVars).getD 0)
      1 ≤ 0 ∧
    mkSpectrum e order center scaling =
      .error (.invalidScaling
        ((firstBadScaling scaling e.sortedFreeVars).getD 0)) := by
  have hsome := firstBadScaling_isSome hv hbad
  rcases hw : firstBadScaling scaling e.sortedFreeVars with _ | w
  · rw [hw] at hsome; cases hsome
  · obtain ⟨hmem, hbadw⟩ := firstBadScaling_mem hw
    have hcs := checkScaling_error_of_firstBad hw
    refine ⟨rfl, hmem, hbadw, ?_⟩
    rw [mkSpectrum, if_neg h0]
    simp only [hcs, Option.getD_some]

/-- Witness for the amended C8: the expression `x₀` with the supplied
scaling value 0 for its variable 0. -/
theorem scaling_guard_amended_witness :
    (firstBadScaling [(0, 0)] (Expr.var 0).sortedFreeVars).isSome =
      true ∧
    (firstBadScaling [(0, 0)] (Expr.var 0).sortedFreeVars).getD 0 ∈
      (Expr.var 0).sortedFreeVars ∧
    qgetD [(0, 0)]
      ((firstBadScaling [(0, 0)] (Expr.var 0).sortedFreeVars).getD 0)
      1 ≤ 0 ∧
    mkSpectrum (Expr.var 0) 1 [] [(0, 0)] =
      .error (.invalidScaling
        ((firstBadScaling [(0, 0)] (Expr.var 0).sortedFreeVars).getD
          0)) :=
  scaling_guard_amended (Expr.var 0) 1 [] [(0, 0)] 0 (by decide)
    (by decide) (by decide)

/-! ### Claim about Series division -/

/-- The subtracted convolution sum of the division recursion, read off
a coefficient table `T` for the already-solved results: the sum over
all sub-indices `i` of `j` whose complement `j − i` differs from `j`
of `b[i] · T[j − i]`. -/
def divSum (bT T : Table) (j : List Nat) : ℚ :=
  (((subIndices j).filter (fun i => idxSub j i ≠ j)).map
    (fun i => dget bT i * dget T (idxSub j i))).sum

theorem divFold_invariant (aT bT : Table) (z : ℚ) (order d : Nat) :
    ∀ (l2 : List (List Nat)) (acc : Table),
      keysOf acc ++ l2 = fullIndices order d →
      (∀ j ∈ keysOf acc,
        dget acc j = (dget aT j - divSum bT acc j) / z) →
      keysOf (l2.foldl (divStep aT bT z) acc) = fullIndices order d ∧
      ∀ j ∈ keysOf (l2.foldl (divStep aT bT z) acc),
        dget (l2.foldl (divStep aT bT z) acc) j =
          (dget aT j -
            divSum bT (l2.foldl (divStep aT bT z) acc) j) / z := by
  intro l2
  induction l2 with
  | nil =>
      intro acc hsplit hinv
      rw [List.foldl_nil]
      rw [List.append_nil] at hsplit
      exact ⟨hsplit, hinv⟩
  | cons k l2' ih =>
      intro acc hsplit hinv
      rw [List.foldl_cons]
      have hpw : (keysOf acc ++ k :: l2').Pairwise lexLt := by
        rw [hsplit]
        exact pairwise_lexLt_fullIndices order d
      obtain ⟨pw1, pw2, cross⟩ := List.pairwise_append.mp hpw
      have hkfull : k ∈ fullIndices order d := by
        rw [← hsplit]
        exact List.mem_append_right _ (List.mem_cons_self _ _)
      have hsub : ∀ j ∈ keysOf acc, j ∈ fullIndices order d := by
        intro j hj
        rw [← hsplit]
        exact List.mem_append_left _ hj
      have hknotin : k ∉ keysOf acc := by
        intro hin
        exact lexLt_irrefl (cross k hin k (List.mem_cons_self _ _))
      have hdep : ∀ j ∈ fullIndices order d, lexLt j k →
          j ∈ keysOf acc := by
        intro j hj hlt
        rw [← hsplit] at hj
        rcases List.mem_append.mp hj with hj | hj
        · exact hj
        · rcases List.mem_cons.mp hj with rfl | hj
          · exact absurd hlt lexLt_irrefl
          · exact
              (lexLt_asymm hlt
                ((List.pairwise_cons.mp pw2).1 j hj)).elim
      have hdepfull : ∀ j ∈ fullIndices order d, ∀ i ∈ subIndices j,
          idxSub j i ∈ fullIndices order d := by
        intro j hj i hi
        have hile := mem_subIndices.mp hi
        obtain ⟨hjlen, hjelem⟩ := mem_fullIndices.mp hj
        rw [mem_fullIndices]
        constructor
        · rw [length_idxSub_of_forall₂ hile, hjlen]
        · exact forall₂_le_mem_lt (forall₂_le_idxSub hile) hjelem
      set acc' := divStep aT bT z acc k with hacc'
      have hkeys' : keysOf acc' = keysOf acc ++ [k] := by
        rw [hacc', divStep, keysOf_dinsert]
      have hsplit' : keysOf acc' ++ l2' = fullIndices order d := by
        rw [hkeys', List.append_assoc, List.singleton_append, hsplit]
      have hstab : ∀ j ∈ keysOf acc, dget acc' j = dget acc j := by
        intro j hj
        rw [hacc', divStep]
        exact dget_dinsert_of_mem _ _ hj
      have hdepacc : ∀ j, j ∈ keysOf acc ∨ j = k → ∀ i ∈ subIndices j,
          idxSub j i ≠ j → idxSub j i ∈ keysOf acc := by
        intro j hj i hi hne
        have hjfull : j ∈ fullIndices order d := by
          rcases hj with hj | rfl
          · exact hsub j hj
          · exact hkfull
        have hle := mem_subIndices.mp hi
        have hlt := lexLt_idxSub hle hne
        apply hdep _ (hdepfull j hjfull i hi)
        rcases hj with hj | rfl
        · exact lexLt_trans hlt (cross j hj k (List.mem_cons_self _ _))
        · exact hlt
      have hsumstab : ∀ j, j ∈ keysOf acc ∨ j = k →
          divSum bT acc' j = divSum bT acc j := by
        intro j hj
        simp only [divSum]
        refine congrArg List.sum (List.map_congr_left ?_)
        intro i hif
        obtain ⟨hi, hcond⟩ := List.mem_filter.mp hif
        have hne : idxSub j i ≠ j := of_decide_eq_true hcond
        rw [hstab _ (hdepacc j hj i hi hne)]
      have hval : dget acc' k = (dget aT k - divSum bT acc k) / z := by
        rw [hacc', divStep, dget_dinsert_self _ hknotin,
          foldl_if_sub_eq_sum (fun i => idxSub k i ≠ k)
            (fun i => dget bT i * dget acc (idxSub k i))]
        rfl
      have hinv' : ∀ j ∈ keysOf acc',
          dget acc' j = (dget aT j - divSum bT acc' j) / z := by
        intro j hj
        rw [hkeys'] at hj
        rcases List.mem_append.mp hj with hj | hj
        · rw [hstab j hj, hsumstab j (Or.inl hj), hinv j hj]
        · rw [List.mem_singleton] at hj
          rw [hj, hval, hsumstab k (Or.inr rfl)]
      exact ih acc' hsplit' hinv'

/-- Claim C1 (amended): for Series division `a / b` of two compatible
Series, the result coefficient at every multi-index `k` of
`{0,…,N-1}^d` satisfies
`result[k] = (a[k] − Σ_{i ≤ k, i ≠ 0} b[i] · result[k−i]) / b[0]`:
the sum excludes the all-zero index `i = 0` (whose term would contain
`result[k]` itself), not `i = k` as the specification writes it, and
missing entries of `a` and `b` default to zero. -/
theorem div_recursion_amended (s t r : Spectrum) (k : List Nat)
    (h : specDiv s (.spec t) = .ok r)
    (hk : k ∈ fullIndices s.order s.varSeq.length) :
    dget r.coeffs k =
      (dget s.coeffs k -
        (((subIndices k).filter
            (fun i => i ≠ List.replicate s.varSeq.length 0)).map
          (fun i => dget t.coeffs i * dget r.coeffs (idxSub k i))).sum)
        / dget t.coeffs (List.replicate s.varSeq.length 0) := by
  cases hcc : checkCompat s t with
  | error e =>
      exfalso
      simp only [specDiv, hcc] at h
      exact Except.noConfusion h
  | ok u =>
      cases hz : dfind? t.coeffs (List.replicate s.varSeq.length 0) with
      | none =>
          exfalso
          simp only [specDiv, hcc, hz] at h
          exact Except.noConfusion h
      | some z =>
          simp only [specDiv, hcc, hz] at h
          split at h
          · exact Except.noConfusion h
          · rw [Except.ok.injEq] at h
            subst h
            have hgetz : dget t.coeffs
                (List.replicate s.varSeq.length 0) = z := by
              rw [dget, hz, Option.getD_some]
            obtain ⟨hkeys, heq⟩ :=
              divFold_invariant s.coeffs t.coeffs z s.order
                s.varSeq.length (fullIndices s.order s.varSeq.length)
                [] (by rw [keysOf, List.map_nil, List.nil_append])
                (by intro j hj; cases hj)
            have hkmem : k ∈ keysOf
                (specDivTable s.coeffs t.coeffs z s.order
                  s.varSeq.length) := by
              rw [specDivTable, hkeys]
              exact hk
            have hrec := heq k hkmem
            show dget ((fullIndices s.order s.varSeq.length).foldl
              (divStep s.coeffs t.coeffs z) []) k = _
            rw [hrec, hgetz]
            have hfilter :
                (subIndices k).filter
                  (fun i => decide (idxSub k i ≠ k)) =
                (subIndices k).filter
                  (fun i =>
                    decide (i ≠ List.replicate s.varSeq.length 0)) := by
              apply List.filter_congr
              intro i hi
              have hle := mem_subIndices.mp hi
              have hlen : k.length = s.varSeq.length :=
                (mem_fullIndices.mp hk).1
              rw [decide_eq_decide, ← hlen]
              exact not_congr (idxSub_eq_self_iff hle)
            simp only [divSum, hfilter]
            rfl

/-- Counterexample to claim C1 as stated: dividing `1 + x` by the
constant Series `1` (order 2, one variable) returns the numerator
itself, with `result[(1)] = 1`; the specification's formula, whose sum
excludes `i = k` instead of `i = 0`, demands
`(a[(1)] − b[(0)]·result[(1)]) / b[(0)] = 0` there. -/
theorem div_claim_counterexample :
    specDiv ⟨2, [0], [0], [1], [([0], 1), ([1], 1)]⟩
        (.spec ⟨2, [0], [0], [1], [([0], 1)]⟩) =
      .ok ⟨2, [0], [0], [1], [([0], 1), ([1], 1)]⟩ ∧
    ¬ (dget ([([0], 1), ([1], 1)] : Table) [1] =
        (dget ([([0], 1), ([1], 1)] : Table) [1] -
          (((subIndices [1]).filter (fun i => i ≠ [1])).map
            (fun i => dget ([([0], 1)] : Table) i *
              dget ([([0], 1), ([1], 1)] : Table)
                (idxSub [1] i))).sum) /
          dget ([([0], 1)] : Table) [0]) := by
  constructor
  · norm_num [specDiv, checkCompat, Spectrum.clone, specDivTable,
      divStep, fullIndices, subIndices, cartProd, idxSub, dget,
      dfind?, dinsert, List.range_succ, List.range_zero,
      List.flatMap_cons, List.flatMap_nil, List.foldl_cons,
      List.foldl_nil]
  · norm_num [subIndices, cartProd, idxSub, dget, dfind?,
      List.range_succ, List.range_zero, List.flatMap_cons,
      List.flatMap_nil]

/-- Witness for the amended C1 at the same concrete division, index
`(1)`. -/
theorem div_recursion_amended_witness :
    dget ([([0], 1), ([1], 1)] : Table) [1] =
      (dget ([([0], 1), ([1], 1)] : Table) [1] -
        (((subIndices [1]).filter
            (fun i => i ≠ List.replicate
              (⟨2, [0], [0], [1], [([0], 1), ([1], 1)]⟩ :
                Spectrum).varSeq.length 0)).map
          (fun i => dget ([([0], 1)] : Table) i *
            dget ([([0], 1), ([1], 1)] : Table) (idxSub [1] i))).sum) /
        dget ([([0], 1)] : Table)
          (List.replicate
            (⟨2, [0], [0], [1], [([0], 1), ([1], 1)]⟩ :
              Spectrum).varSeq.length 0) :=
  div_recursion_amended ⟨2, [0], [0], [1], [([0], 1), ([1], 1)]⟩
    ⟨2, [0], [0], [1], [([0], 1)]⟩
    ⟨2, [0], [0], [1], [([0], 1), ([1], 1)]⟩ [1]
    (by norm_num [specDiv, checkCompat, Spectrum.clone, specDivTable,
      divStep, fullIndices, subIndices, cartProd, idxSub, dget,
      dfind?, dinsert, List.range_succ, List.range_zero,
      List.flatMap_cons, List.flatMap_nil, List.foldl_cons,
      List.foldl_nil])
    (by decide)

end DTransform
